import Mathlib

/-!
Verification development for the documentation_indexer repository.

The Python sources are shallowly embedded as executable Lean definitions:

* Python `str` values that the chunker and normalizer manipulate are
  embedded as `List Char`, so that splitting and joining are structural.
* SQLite tables are embedded as insertion-ordered lists of row structures;
  `SELECT ... LIMIT 1` without `ORDER BY` scans in rowid (insertion) order
  and is embedded as `List.find?`.
* `float` columns (`mtime`, `indexed_at`) and the bm25 `REAL` score are
  embedded as `Rat`; the code only ever compares them for exact equality
  or orders them, which `Rat` models faithfully.
* `sha256_file` and the FTS5 engine internals (token matching, bm25
  scoring, snippet generation) are external capabilities and enter the
  model as function parameters.
* `uuid.uuid4()` produces a fresh identifier per emitted chunk; freshness
  is modeled by a counter threaded through the store (`next_uuid`), each
  emitted chunk consuming one value.
-/

/-! ## utils.py -/

/-- Whitespace recognized by Python `str.split()` / `str.strip()` for the
character set reachable here (the non-breaking space is replaced before
splitting in `normalize_text`). -/
def isPySpace (c : Char) : Bool :=
  c = ' ' || c = '\t' || c = '\n' || c = '\r' || c = '\x0b' || c = '\x0c'

/-- The replacement of U+00A0 by a plain space in `normalize_text`. -/
def nbspFix (c : Char) : Char :=
  if c = '\u00A0' then ' ' else c

/-- Accumulator-style worker for Python `str.split()` with no separator:
splits on whitespace runs and drops empty pieces. The accumulator holds the
current word reversed. -/
def pyWordsAux : List Char → List Char → List (List Char)
  | [], cur => if cur = [] then [] else [cur.reverse]
  | c :: rest, cur =>
    if isPySpace c then
      if cur = [] then pyWordsAux rest []
      else cur.reverse :: pyWordsAux rest []
    else pyWordsAux rest (c :: cur)

/-- Python `s.split()` (no separator argument). -/
def pyWords (s : List Char) : List (List Char) :=
  pyWordsAux s []

/-- Python `" ".join(ws)`. -/
def joinSpace : List (List Char) → List Char
  | [] => []
  | [w] => w
  | w :: ws => w ++ ' ' :: joinSpace ws

/-- Python `s.strip()`: drop whitespace from both ends. -/
def pyStrip (s : List Char) : List Char :=
  ((s.dropWhile isPySpace).reverse.dropWhile isPySpace).reverse

/-- utils.normalize_text: replace U+00A0 by a space, collapse whitespace
runs to single spaces, and trim. -/
def normalize_text (s : List Char) : List Char :=
  pyStrip (joinSpace (pyWords (s.map nbspFix)))

/-- utils.stable_doc_id: the deterministic content-derived identifier is
the sha256 hex digest itself. -/
def stable_doc_id (sha256_hex : String) : String :=
  sha256_hex

/-! ## indexer.py : chunker -/

/-- indexer.Chunk. The uuid4 hex id is modeled by a Nat drawn from a fresh
supply. -/
structure Chunk where
  id : Nat
  doc_id : String
  page_start : Nat
  page_end : Nat
  text : List Char
deriving DecidableEq, Repr

/-- Chunking parameters, as passed from config.Settings into build_chunks. -/
structure ChunkParams where
  max_chunk_chars : Nat
  min_chunk_chars : Nat
  max_pages_per_chunk : Nat
deriving DecidableEq, Repr

/-- Python newline join used inside build_chunks. -/
def joinNL : List (List Char) → List Char
  | [] => []
  | [t] => t
  | t :: ts => t ++ '\n' :: joinNL ts

/-- The flush() closure of build_chunks: an empty buffer emits nothing;
otherwise the joined buffer is normalized and emitted unless normalization
yields empty text. -/
def flushChunk (doc_id : String) (u cs ce : Nat) (buf : List (List Char)) :
    Option Chunk :=
  if buf = [] then none
  else if normalize_text (joinNL buf) = [] then none
  else some ⟨u, doc_id, cs, ce, normalize_text (joinNL buf)⟩

/-- The page loop of build_chunks. State: idx is the 1-based index of the
next page, buf the accumulation buffer, cs and ce the current chunk start
and end page indices, u the next fresh chunk id. Pages with empty text are
skipped. Note that in the flush-or-force-append branch the current page is
force-appended to the buffer being flushed when the buffer is still below
min_chunk_chars, and the fresh buffer is then started with that same page
again, exactly as in the source. -/
def buildLoop (doc_id : String) (p : ChunkParams) :
    Nat → List (List Char) → Nat → Nat → Nat → List (List Char) → List Chunk
  | _, buf, cs, ce, u, [] => (flushChunk doc_id u cs ce buf).toList
  | idx, buf, cs, ce, u, text :: rest =>
    if text = [] then
      buildLoop doc_id p (idx + 1) buf cs ce u rest
    else if buf = [] then
      buildLoop doc_id p (idx + 1) [text] idx idx u rest
    else if (joinNL (buf ++ [text])).length ≤ p.max_chunk_chars ∧
        idx - cs + 1 ≤ p.max_pages_per_chunk then
      buildLoop doc_id p (idx + 1) (buf ++ [text]) cs idx u rest
    else if (joinNL buf).length < p.min_chunk_chars ∧
        idx - cs + 1 ≤ p.max_pages_per_chunk then
      match flushChunk doc_id u cs idx (buf ++ [text]) with
      | some c => c :: buildLoop doc_id p (idx + 1) [text] idx idx (u + 1) rest
      | none => buildLoop doc_id p (idx + 1) [text] idx idx u rest
    else
      match flushChunk doc_id u cs ce buf with
      | some c => c :: buildLoop doc_id p (idx + 1) [text] idx idx (u + 1) rest
      | none => buildLoop doc_id p (idx + 1) [text] idx idx u rest

/-- indexer.build_chunks. The initial state mirrors the source: buffer
empty, current_start = current_end = 1, pages enumerated from 1. -/
def build_chunks (pages_text : List (List Char)) (doc_id : String)
    (p : ChunkParams) (u0 : Nat) : List Chunk :=
  buildLoop doc_id p 1 [] 1 1 u0 pages_text

/-! ## indexer.py : index_pdf and its inputs -/

/-- The two stat fields the code reads. st_mtime is a float, st_size an
int. -/
structure Stat where
  st_mtime : Rat
  st_size : Int
deriving DecidableEq, Repr

/-- A candidate file as the ingestion route sees it. The filesystem and the
PDF library are external, so their answers for this file are part of the
value: exists_ and is_file model the Path queries, suffix models
Path(...).suffix, resolved models Path(...).resolve(), filename models
Path(...).name, statRes the stat() call, bytesRes the byte stream read by
sha256_file, rawPages the raw per-page text yielded by the PDF extractor
(error means the corresponding call raises, carrying the exception
message), and dbFail injects a storage-layer exception inside this file's
delete/upsert/insert transaction. -/
structure PdfFile where
  path : String
  resolved : String
  filename : String
  exists_ : Bool
  is_file : Bool
  suffix : List Char
  statRes : Except String Stat
  bytesRes : Except String (List Nat)
  rawPages : Except String (List (List Char))
  dbFail : Option String
deriving Repr

/-- indexer.IndexedDocument. -/
structure IndexedDocument where
  doc_id : String
  path : String
  filename : String
  sha256 : String
  mtime : Rat
  size_bytes : Int
  indexed_at : Rat
  chunks : List Chunk
deriving DecidableEq, Repr

/-- indexer.extract_pages_text: each raw page text is normalized; a raised
extraction error propagates. -/
def extract_pages_text (f : PdfFile) : Except String (List (List Char)) :=
  match f.rawPages with
  | .error e => .error e
  | .ok raw => .ok (raw.map normalize_text)

/-- indexer.index_pdf. hash models sha256_file as a function of the file
bytes, now models time.time(), u0 seeds the fresh chunk-id supply. The
source order of effects (stat, sha256, extract) is kept; the first raising
call determines the error. -/
def index_pdf (hash : List Nat → String) (now : Rat) (p : ChunkParams)
    (u0 : Nat) (f : PdfFile) : Except String IndexedDocument :=
  match f.statRes with
  | .error e => .error e
  | .ok st =>
    match f.bytesRes with
    | .error e => .error e
    | .ok bytes =>
      let sha256 := hash bytes
      let doc_id := stable_doc_id sha256
      match extract_pages_text f with
      | .error e => .error e
      | .ok pages =>
        .ok { doc_id := doc_id
              path := f.resolved
              filename := f.filename
              sha256 := sha256
              mtime := st.st_mtime
              size_bytes := st.st_size
              indexed_at := now
              chunks := build_chunks pages doc_id p u0 }

/-! ## db.py : store model -/

/-- One row of the documents table. -/
structure DocRow where
  id : String
  path : String
  filename : String
  sha256 : String
  mtime : Rat
  size_bytes : Int
  indexed_at : Rat
deriving DecidableEq, Repr

/-- One row of the chunks table. -/
structure ChunkRow where
  id : Nat
  document_id : String
  page_start : Nat
  page_end : Nat
  text : List Char
deriving DecidableEq, Repr

/-- One row of the chunks_fts virtual table (the UNINDEXED metadata plus
the indexed text column). -/
structure FtsRow where
  chunk_id : Nat
  document_id : String
  filename : String
  path : String
  page_start : Nat
  page_end : Nat
  text : List Char
deriving DecidableEq, Repr

/-- The SQLite database: each table as an insertion-ordered row list, plus
the fresh supply modeling uuid4. -/
structure Store where
  documents : List DocRow
  chunks : List ChunkRow
  chunks_fts : List FtsRow
  next_uuid : Nat
deriving DecidableEq, Repr

/-- The store right after init_db on a fresh database file. -/
def emptyStore : Store :=
  { documents := [], chunks := [], chunks_fts := [], next_uuid := 0 }

/-- db.get_document_by_path: SELECT * FROM documents WHERE path = ? LIMIT 1
with no ORDER BY scans in rowid order, i.e. returns the first matching row
in insertion order. -/
def get_document_by_path (s : Store) (path : String) : Option DocRow :=
  s.documents.find? (fun r => r.path = path)

/-- db.upsert_document: INSERT ... ON CONFLICT(id) DO UPDATE SET ... — the
conflict target is the content-derived primary key id, so a row with the
same id is updated in place (keeping its position) and otherwise a new row
is appended. -/
def upsert_document (s : Store) (doc_id path filename sha256 : String)
    (mtime : Rat) (size_bytes : Int) (indexed_at : Rat) : Store :=
  if s.documents.any (fun r => r.id = doc_id) then
    { s with documents := s.documents.map (fun r =>
        if r.id = doc_id then
          { r with path := path, filename := filename, sha256 := sha256,
                   mtime := mtime, size_bytes := size_bytes,
                   indexed_at := indexed_at }
        else r) }
  else
    { s with documents := s.documents ++
        [⟨doc_id, path, filename, sha256, mtime, size_bytes, indexed_at⟩] }

/-- db.delete_document_chunks: delete from chunks and chunks_fts every row
owned by doc_id. -/
def delete_document_chunks (s : Store) (doc_id : String) : Store :=
  { s with chunks := s.chunks.filter (fun r => r.document_id ≠ doc_id),
           chunks_fts := s.chunks_fts.filter (fun r => r.document_id ≠ doc_id) }

/-- db.insert_chunks: executemany INSERT appends the rows in order. -/
def insert_chunks (s : Store) (chunk_rows : List ChunkRow) : Store :=
  { s with chunks := s.chunks ++ chunk_rows }

/-- db.insert_fts_rows: executemany INSERT appends the rows in order. -/
def insert_fts_rows (s : Store) (fts_rows : List FtsRow) : Store :=
  { s with chunks_fts := s.chunks_fts ++ fts_rows }

/-- db.SearchResult. -/
structure SearchResult where
  doc_id : String
  filename : String
  path : String
  page_start : Nat
  page_end : Nat
  score : Rat
  snippet : List Char
deriving DecidableEq, Repr

/-- db.search_chunks. The FTS5 engine is external: matchQ decides MATCH,
score is bm25 (lower is better), snippetF is the snippet() generator whose
last argument the code sets to max 10 snippet_chars. ORDER BY score sorts
ascending; LIMIT receives the Python int top_k directly, and SQLite treats
a negative LIMIT as no limit at all. -/
def search_chunks (score : List Char → FtsRow → Rat)
    (matchQ : List Char → FtsRow → Bool)
    (snippetF : Int → List Char → FtsRow → List Char)
    (s : Store) (query : List Char) (top_k : Int) (snippet_chars : Int) :
    List SearchResult :=
  let matched := s.chunks_fts.filter (matchQ query)
  let sorted := matched.insertionSort (fun a b => score query a ≤ score query b)
  let rows := if top_k < 0 then sorted else sorted.take top_k.toNat
  rows.map (fun r =>
    ⟨r.document_id, r.filename, r.path, r.page_start, r.page_end,
     score query r, snippetF (max 10 snippet_chars) query r⟩)

/-! ## app.py : ingestion and query routes -/

/-- Outcome of the per-file body of the ingestion loop. -/
inductive FileOutcome where
  | indexed
  | skipped
  | errored (msg : String)
deriving DecidableEq, Repr

/-- The reindex transaction of the per-file loop body: extract and chunk
via index_pdf, delete the superseded chunks of the existing document if
any, upsert the document row, insert the new chunk and fts rows, and
commit. Any exception raised on the way rolls the transaction back, so on
an error the store is returned unchanged. -/
def commit_file (hash : List Nat → String) (now : Rat) (p : ChunkParams)
    (s : Store) (existing : Option DocRow) (f : PdfFile) :
    Store × FileOutcome :=
  match index_pdf hash now p s.next_uuid f with
  | .error m => (s, .errored m)
  | .ok doc =>
    match f.dbFail with
    | some m => (s, .errored m)
    | none =>
      let s1 := match existing with
        | some e => delete_document_chunks s e.id
        | none => s
      let s2 := upsert_document s1 doc.doc_id doc.path doc.filename
        doc.sha256 doc.mtime doc.size_bytes doc.indexed_at
      let s3 := insert_chunks s2 (doc.chunks.map (fun c =>
        ⟨c.id, c.doc_id, c.page_start, c.page_end, c.text⟩))
      let s4 := insert_fts_rows s3 (doc.chunks.map (fun c =>
        ⟨c.id, c.doc_id, doc.filename, doc.path, c.page_start, c.page_end,
         c.text⟩))
      let s5 := { s4 with next_uuid := s.next_uuid + doc.chunks.length }
      (s5, .indexed)

/-- The body of the per-file loop in the ingest route: look up the existing
document by resolved path, apply the cheap mtime and size change detection
(a failing stat falls through to reindexing), and reindex through
commit_file unless the file is skipped. -/
def process_file (hash : List Nat → String) (now : Rat) (p : ChunkParams)
    (force : Bool) (s : Store) (f : PdfFile) : Store × FileOutcome :=
  let existing := get_document_by_path s f.resolved
  let skip : Bool :=
    match existing, force, f.statRes with
    | some e, false, .ok st =>
      decide (e.mtime = st.st_mtime) && decide (e.size_bytes = st.st_size)
    | _, _, _ => false
  if skip then (s, .skipped)
  else commit_file hash now p s existing f

/-- Aggregate result of the ingest route, minus the constant db_path
field. -/
structure IngestResult where
  indexed : Nat
  skipped : Nat
  errors : List (String × String)
deriving DecidableEq, Repr

/-- The loop over pdf_paths in the ingest route: counts are accumulated and
an errored file contributes an entry pairing the original (unresolved) path
string with the exception message, in input order. -/
def ingest_loop (hash : List Nat → String) (now : Rat) (p : ChunkParams)
    (force : Bool) (s : Store) : List PdfFile → Store × IngestResult
  | [] => (s, ⟨0, 0, []⟩)
  | f :: rest =>
    let step := process_file hash now p force s f
    let batch := ingest_loop hash now p force step.1 rest
    match step.2 with
    | .indexed =>
      (batch.1, { batch.2 with indexed := batch.2.indexed + 1 })
    | .skipped =>
      (batch.1, { batch.2 with skipped := batch.2.skipped + 1 })
    | .errored m =>
      (batch.1, { batch.2 with errors := (f.path, m) :: batch.2.errors })

/-- Python str.lower restricted to the character data reachable here. -/
def pyLower (s : List Char) : List Char :=
  s.map Char.toLower

/-- The filter the ingest route applies to an explicit files list:
p.exists() and p.is_file() and p.suffix.lower() == ".pdf". -/
def keepCandidate (f : PdfFile) : Bool :=
  f.exists_ && f.is_file && (pyLower f.suffix = ['.', 'p', 'd', 'f'])

/-- The ingest route. A JSON files list that is present and non-empty (a
present empty list is falsy in Python) is filtered by keepCandidate;
otherwise the paths come from the directory scan, modeled by the opaque
list dirScan since filesystem traversal is external. -/
def ingest_route (hash : List Nat → String) (now : Rat) (p : ChunkParams)
    (dirScan : List PdfFile) (files : Option (List PdfFile)) (force : Bool)
    (s : Store) : Store × IngestResult :=
  let pdf_paths : List PdfFile :=
    match files with
    | some fs => if fs.isEmpty then dirScan else fs.filter keepCandidate
    | none => dirScan
  ingest_loop hash now p force s pdf_paths

/-- Response of the query route: either the 400 input-error response or the
success payload. -/
inductive QueryResponse where
  | clientError (status : Nat) (msg : String)
  | ok (query : List Char) (top_k : Int) (results : List SearchResult)
deriving DecidableEq, Repr

/-- Python int(x or default): a missing or zero value falls back to the
default. -/
def pyOrDefault (v : Option Int) (dflt : Int) : Int :=
  match v with
  | none => dflt
  | some n => if n = 0 then dflt else n

/-- The query route: the query string is defaulted to empty, stripped, and
rejected with status 400 when falsy; only otherwise is search_chunks
invoked. -/
def query_route (score : List Char → FtsRow → Rat)
    (matchQ : List Char → FtsRow → Bool)
    (snippetF : Int → List Char → FtsRow → List Char)
    (default_top_k default_snippet_chars : Int) (s : Store)
    (body_query : Option (List Char)) (body_top_k : Option Int)
    (body_snippet_chars : Option Int) : QueryResponse :=
  let q := pyStrip (body_query.getD [])
  if q = [] then .clientError 400 "Missing query"
  else
    let top_k := pyOrDefault body_top_k default_top_k
    let snippet_chars := pyOrDefault body_snippet_chars default_snippet_chars
    .ok q top_k (search_chunks score matchQ snippetF s q top_k snippet_chars)

/-! ## Concrete inputs used by witnesses and counterexamples -/

/-- A concrete stand-in for the external sha256 capability: deterministic
in the bytes, and separating the two byte strings the scenarios use. -/
def demoHash (b : List Nat) : String :=
  if b = [0] then "h0" else "h1"

/-- The default chunking configuration from config.load_settings. -/
def demoParams : ChunkParams :=
  ⟨8000, 1200, 3⟩

/-- Chunker input: a two-character page followed by a four-character page. -/
def cexPages : List (List Char) :=
  [['a', 'a'], ['b', 'b', 'b', 'b']]

/-- Chunker parameters max_chunk_chars 3, min_chunk_chars 3,
max_pages_per_chunk 2: the second page alone exceeds the size bound while
the first is below the minimum. -/
def cexParams : ChunkParams :=
  ⟨3, 3, 2⟩

/-- A well-formed one-page PDF at /d/x.pdf with content bytes hashing to
h0, mtime 1, size 1. -/
def fA : PdfFile :=
  { path := "docs/x.pdf", resolved := "/d/x.pdf", filename := "x.pdf",
    exists_ := true, is_file := true, suffix := ['.', 'p', 'd', 'f'],
    statRes := .ok ⟨1, 1⟩, bytesRes := .ok [0], rawPages := .ok [['a']],
    dbFail := none }

/-- The same path after its content changed: bytes now hash to h1, mtime
2. -/
def fB : PdfFile :=
  { fA with statRes := .ok ⟨2, 1⟩, bytesRes := .ok [1],
            rawPages := .ok [['b']] }

/-- First ingestion of the path while it had the h0 content. -/
def runA : Store × IngestResult :=
  ingest_loop demoHash 10 demoParams false emptyStore [fA]

/-- Re-ingestion after the content changed to the h1 version. -/
def runB : Store × IngestResult :=
  ingest_loop demoHash 20 demoParams false runA.1 [fB]

/-- One more ingestion of the very same unchanged h1 version. -/
def runB2 : Store × IngestResult :=
  ingest_loop demoHash 30 demoParams false runB.1 [fB]

/-- A file at /a.pdf with content bytes [7]. -/
def wSame1 : PdfFile :=
  { path := "a.pdf", resolved := "/a.pdf", filename := "a.pdf",
    exists_ := true, is_file := true, suffix := ['.', 'p', 'd', 'f'],
    statRes := .ok ⟨5, 3⟩, bytesRes := .ok [7], rawPages := .ok [['z']],
    dbFail := none }

/-- A file at a different path /b.pdf with byte-identical content. -/
def wSame2 : PdfFile :=
  { wSame1 with path := "b.pdf", resolved := "/b.pdf", filename := "b.pdf" }

/-- A PDF whose text extraction raises. -/
def fBad : PdfFile :=
  { fA with path := "docs/bad.pdf", resolved := "/d/bad.pdf",
            filename := "bad.pdf", rawPages := .error "boom" }

/-- A candidate path whose suffix is not .pdf. -/
def fTxt : PdfFile :=
  { fA with path := "docs/notes.txt", resolved := "/d/notes.txt",
            filename := "notes.txt", suffix := ['.', 't', 'x', 't'] }

/-- A store holding a single indexed fts row. -/
def oneRowStore : Store :=
  { emptyStore with
      chunks_fts := [⟨0, "h1", "x.pdf", "/d/x.pdf", 1, 1, ['z']⟩] }

/-- A concrete stand-in for the bm25 scoring capability. -/
def zeroScore : List Char → FtsRow → Rat :=
  fun _ _ => 0

/-- A concrete stand-in for FTS MATCH that matches every row. -/
def allMatch : List Char → FtsRow → Bool :=
  fun _ _ => true

/-- A concrete stand-in for the snippet generator. -/
def emptySnippet : Int → List Char → FtsRow → List Char :=
  fun _ _ _ => []

/-! ## Lemmas about the text normalizer -/

/-- The split worker returns no words exactly when the accumulator is empty
and every remaining character is whitespace. -/
theorem pyWordsAux_eq_nil (u : List Char) :
    ∀ cur, pyWordsAux u cur = [] ↔ (cur = [] ∧ ∀ c ∈ u, isPySpace c = true) := by
  induction u with
  | nil =>
    intro cur
    simp only [pyWordsAux]
    split <;> simp_all
  | cons c rest ih =>
    intro cur
    simp only [pyWordsAux]
    by_cases hc : isPySpace c = true
    · rw [if_pos hc]
      by_cases hcur : cur = []
      · rw [if_pos hcur]
        simp [ih, hcur, hc]
      · rw [if_neg hcur]
        simp [hcur]
    · rw [if_neg hc]
      rw [ih]
      simp [hc]

/-- Every word the split worker produces from a non-whitespace accumulator
is non-empty and free of whitespace characters. -/
theorem pyWordsAux_words (u : List Char) :
    ∀ cur, (∀ c ∈ cur, isPySpace c = false) →
      ∀ w ∈ pyWordsAux u cur, w ≠ [] ∧ ∀ c ∈ w, isPySpace c = false := by
  induction u with
  | nil =>
    intro cur hcur w hw
    simp only [pyWordsAux] at hw
    split at hw
    · simp at hw
    · simp only [List.mem_singleton] at hw
      subst hw
      constructor
      · simpa using ‹¬cur = []›
      · intro c hc
        exact hcur c (List.mem_reverse.mp hc)
  | cons c rest ih =>
    intro cur hcur w hw
    simp only [pyWordsAux] at hw
    by_cases hc : isPySpace c = true
    · rw [if_pos hc] at hw
      by_cases hcur0 : cur = []
      · rw [if_pos hcur0] at hw
        exact ih [] (by simp) w hw
      · rw [if_neg hcur0] at hw
        rcases List.mem_cons.mp hw with h | h
        · subst h
          refine ⟨by simpa using hcur0, ?_⟩
          intro d hd
          exact hcur d (List.mem_reverse.mp hd)
        · exact ih [] (by simp) w h
    · rw [if_neg hc] at hw
      refine ih (c :: cur) ?_ w hw
      intro d hd
      rcases List.mem_cons.mp hd with h | h
      · subst h
        simpa using hc
      · exact hcur d h

/-- joinSpace of a non-empty word list starts with the first word. -/
theorem joinSpace_cons (w : List Char) (ws : List (List Char)) :
    ∃ t, joinSpace (w :: ws) = w ++ t := by
  cases ws with
  | nil => exact ⟨[], by simp [joinSpace]⟩
  | cons v vs => exact ⟨' ' :: joinSpace (v :: vs), rfl⟩

/-- Stripping keeps a list whose head is not whitespace non-empty. -/
theorem pyStrip_cons_ne_nil (c : Char) (t : List Char)
    (hc : isPySpace c = false) : pyStrip (c :: t) ≠ [] := by
  unfold pyStrip
  rw [List.dropWhile_cons_of_neg (by simp [hc])]
  intro h
  rw [List.reverse_eq_nil_iff, List.dropWhile_eq_nil_iff] at h
  have := h c (by simp)
  simp [hc] at this

/-- normalize_text produces empty output exactly when no character
survives whitespace collapsing, i.e. every character is whitespace after
the non-breaking-space replacement. -/
theorem normalize_text_ne_nil (s : List Char) :
    normalize_text s ≠ [] ↔ ∃ c ∈ s, isPySpace (nbspFix c) = false := by
  constructor
  · intro h
    by_contra hall
    push_neg at hall
    apply h
    unfold normalize_text pyWords
    have : pyWordsAux (s.map nbspFix) [] = [] := by
      rw [pyWordsAux_eq_nil]
      refine ⟨rfl, ?_⟩
      intro c hc
      rcases List.mem_map.mp hc with ⟨d, hd, rfl⟩
      have := hall d hd
      simpa using this
    rw [this]
    simp [joinSpace, pyStrip]
  · rintro ⟨c, hc, hcs⟩
    unfold normalize_text pyWords
    have hne : pyWordsAux (s.map nbspFix) [] ≠ [] := by
      intro h0
      rw [pyWordsAux_eq_nil] at h0
      rcases h0 with ⟨-, hall⟩
      have := hall (nbspFix c) (List.mem_map_of_mem _ hc)
      simp [hcs] at this
    rcases hw : pyWordsAux (s.map nbspFix) [] with _ | ⟨w, ws⟩
    · exact absurd hw hne
    · have hwp := pyWordsAux_words (s.map nbspFix) [] (by simp) w
        (by rw [hw]; simp)
      rcases hwp with ⟨hwne, hwchars⟩
      rcases w with _ | ⟨c0, w0⟩
      · exact absurd rfl hwne
      · rcases joinSpace_cons (c0 :: w0) ws with ⟨t, ht⟩
        rw [ht]
        exact pyStrip_cons_ne_nil c0 (w0 ++ t) (hwchars c0 (by simp))

/-! ## Lemmas about the chunker -/

/-- Characters of any buffered page occur in the newline join. -/
theorem mem_joinNL {t : List Char} {l : List (List Char)} (ht : t ∈ l)
    {c : Char} (hc : c ∈ t) : c ∈ joinNL l := by
  induction l with
  | nil => cases ht
  | cons a l ih =>
    cases l with
    | nil =>
      rcases List.mem_singleton.mp ht with rfl
      simpa [joinNL] using hc
    | cons b bs =>
      show c ∈ a ++ '\n' :: joinNL (b :: bs)
      rcases List.mem_cons.mp ht with rfl | ht2
      · exact List.mem_append_left _ hc
      · exact List.mem_append_right _ (List.mem_cons_of_mem _ (ih ht2))

/-- The newline join is at least as long as any buffered page. -/
theorem joinNL_length_ge {t : List Char} {l : List (List Char)} (ht : t ∈ l) :
    t.length ≤ (joinNL l).length := by
  induction l with
  | nil => cases ht
  | cons a l ih =>
    cases l with
    | nil =>
      rcases List.mem_singleton.mp ht with rfl
      simp [joinNL]
    | cons b bs =>
      have : joinNL (a :: b :: bs) = a ++ '\n' :: joinNL (b :: bs) := rfl
      rw [this, List.length_append]
      rcases List.mem_cons.mp ht with rfl | ht2
      · omega
      · have := ih ht2
        simp only [List.length_cons]
        omega

/-- A non-empty buffer of non-empty pages has a non-empty newline join. -/
theorem joinNL_ne_nil {l : List (List Char)} (hl : l ≠ [])
    (h : ∀ t ∈ l, t ≠ []) : joinNL l ≠ [] := by
  cases l with
  | nil => exact absurd rfl hl
  | cons a l =>
    cases l with
    | nil => simpa [joinNL] using h a (by simp)
    | cons b bs =>
      show a ++ '\n' :: joinNL (b :: bs) ≠ []
      simp

/-- Flushing a non-empty buffer of pages fixed by normalization always
emits a chunk carrying the normalized join. -/
theorem flushChunk_emits {doc : String} {u cs ce : Nat}
    {buf : List (List Char)} (hne : buf ≠ [])
    (h : ∀ t ∈ buf, normalize_text t = t ∧ t ≠ []) :
    flushChunk doc u cs ce buf
      = some ⟨u, doc, cs, ce, normalize_text (joinNL buf)⟩ := by
  have htext : normalize_text (joinNL buf) ≠ [] := by
    rcases buf with _ | ⟨t, ts⟩
    · exact absurd rfl hne
    · have ⟨hfix, htne⟩ := h t (by simp)
      have : normalize_text t ≠ [] := by rw [hfix]; exact htne
      rcases (normalize_text_ne_nil t).mp this with ⟨c, hc, hcs⟩
      exact (normalize_text_ne_nil _).mpr
        ⟨c, mem_joinNL (by simp) hc, hcs⟩
  unfold flushChunk
  rw [if_neg (by simpa using hne), if_neg (by simpa using htext)]

/-- A chunk actually emitted by flush carries the state the flush saw. -/
theorem flushChunk_some_eq {doc : String} {u cs ce : Nat}
    {buf : List (List Char)} {c : Chunk}
    (h : flushChunk doc u cs ce buf = some c) :
    c = ⟨u, doc, cs, ce, normalize_text (joinNL buf)⟩ := by
  unfold flushChunk at h
  split at h
  · cases h
  · split at h
    · cases h
    · cases h; rfl

/-- Every chunk the loop emits starts no earlier than the current chunk
start. -/
theorem buildLoop_start_ge (doc : String) (p : ChunkParams) :
    ∀ (rest : List (List Char)) (idx : Nat) (buf : List (List Char))
      (cs ce u : Nat), cs ≤ idx →
      ∀ c ∈ buildLoop doc p idx buf cs ce u rest, cs ≤ c.page_start := by
  intro rest
  induction rest with
  | nil =>
    intro idx buf cs ce u _ c hc
    simp only [buildLoop] at hc
    rcases hf : flushChunk doc u cs ce buf with _ | c0
    · rw [hf] at hc
      simp at hc
    · rw [hf] at hc
      simp only [Option.toList_some, List.mem_singleton] at hc
      subst hc
      rw [flushChunk_some_eq hf]
  | cons text rest ih =>
    intro idx buf cs ce u hcs c hc
    simp only [buildLoop] at hc
    by_cases h0 : text = []
    · rw [if_pos h0] at hc
      exact ih (idx + 1) buf cs ce u (by omega) c hc
    · rw [if_neg h0] at hc
      by_cases hb : buf = []
      · rw [if_pos hb] at hc
        have := ih (idx + 1) [text] idx idx u (by omega) c hc
        omega
      · rw [if_neg hb] at hc
        by_cases hfit : (joinNL (buf ++ [text])).length ≤ p.max_chunk_chars ∧
            idx - cs + 1 ≤ p.max_pages_per_chunk
        · rw [if_pos hfit] at hc
          exact ih (idx + 1) (buf ++ [text]) cs idx u (by omega) c hc
        · rw [if_neg hfit] at hc
          by_cases hforce : (joinNL buf).length < p.min_chunk_chars ∧
              idx - cs + 1 ≤ p.max_pages_per_chunk
          · rw [if_pos hforce] at hc
            rcases hf : flushChunk doc u cs idx (buf ++ [text]) with _ | c0
            · rw [hf] at hc
              have := ih (idx + 1) [text] idx idx u (by omega) c hc
              omega
            · rw [hf] at hc
              rcases List.mem_cons.mp hc with rfl | hc2
              · rw [flushChunk_some_eq hf]
              · have := ih (idx + 1) [text] idx idx (u + 1) (by omega) c hc2
                omega
          · rw [if_neg hforce] at hc
            rcases hf : flushChunk doc u cs ce buf with _ | c0
            · rw [hf] at hc
              have := ih (idx + 1) [text] idx idx u (by omega) c hc
              omega
            · rw [hf] at hc
              rcases List.mem_cons.mp hc with rfl | hc2
              · rw [flushChunk_some_eq hf]
              · have := ih (idx + 1) [text] idx idx (u + 1) (by omega) c hc2
                omega

/-- Once an oversized page sits alone in the buffer, the loop flushes it as
its own single-page chunk, and all later chunks start at or after the
current page index. -/
theorem buildLoop_big_alone (doc : String) (p : ChunkParams)
    (hmin : p.min_chunk_chars ≤ 1) (big : List Char)
    (hbig : p.max_chunk_chars < big.length)
    (hfix : normalize_text big = big) :
    ∀ (after : List (List Char)) (idx q u : Nat), q < idx →
      ∃ B, buildLoop doc p idx [big] q q u after
          = ⟨u, doc, q, q, big⟩ :: B ∧ ∀ c ∈ B, idx ≤ c.page_start := by
  have hbigne : big ≠ [] := by
    intro h
    rw [h] at hbig
    simp at hbig
  have hflush : ∀ u q, flushChunk doc u q q [big]
      = some ⟨u, doc, q, q, big⟩ := by
    intro u q
    unfold flushChunk
    rw [if_neg (by simp)]
    have : normalize_text (joinNL [big]) = big := by
      simpa [joinNL] using hfix
    rw [this, if_neg hbigne]
  intro after
  induction after with
  | nil =>
    intro idx q u hq
    refine ⟨[], ?_, by simp⟩
    simp only [buildLoop]
    rw [hflush]
    rfl
  | cons text rest ih =>
    intro idx q u hq
    simp only [buildLoop]
    by_cases h0 : text = []
    · rw [if_pos h0]
      rcases ih (idx + 1) q u (by omega) with ⟨B, hB, hBs⟩
      exact ⟨B, hB, fun c hc => by have := hBs c hc; omega⟩
    · rw [if_neg h0, if_neg (by simp)]
      have hlen : big.length ≤ (joinNL ([big] ++ [text])).length :=
        joinNL_length_ge (by simp)
      rw [if_neg (by intro h; omega)]
      have hforce : ¬ ((joinNL [big]).length < p.min_chunk_chars ∧
          idx - q + 1 ≤ p.max_pages_per_chunk) := by
        intro h
        have : (joinNL [big]).length = big.length := by simp [joinNL]
        omega
      rw [if_neg hforce, hflush]
      refine ⟨buildLoop doc p (idx + 1) [text] idx idx (u + 1) rest, rfl, ?_⟩
      intro c hc
      exact buildLoop_start_ge doc p rest (idx + 1) [text] idx idx (u + 1)
        (by omega) c hc

/-- With the minimum-size relaxation disabled (min_chunk_chars at most 1),
running the loop over pages that still contain an oversized page yields
exactly: some chunks ending before that page, one single-page chunk for it,
and some chunks starting after it. -/
theorem buildLoop_split (doc : String) (p : ChunkParams)
    (hmin : p.min_chunk_chars ≤ 1) (big : List Char)
    (hbig : p.max_chunk_chars < big.length)
    (hfix : normalize_text big = big) :
    ∀ (mid after : List (List Char)) (idx : Nat) (buf : List (List Char))
      (cs ce u : Nat), (∀ t ∈ buf, t ≠ []) → (buf ≠ [] → ce < idx) →
      ∃ A B u2, buildLoop doc p idx buf cs ce u (mid ++ big :: after)
          = A ++ ⟨u2, doc, idx + mid.length, idx + mid.length, big⟩ :: B
        ∧ (∀ c ∈ A, c.page_end < idx + mid.length)
        ∧ (∀ c ∈ B, idx + mid.length < c.page_start) := by
  have hbigne : big ≠ [] := by
    intro h
    rw [h] at hbig
    simp at hbig
  have hnoforce : ∀ (buf : List (List Char)) (idx cs : Nat), buf ≠ [] →
      (∀ t ∈ buf, t ≠ []) →
      ¬ ((joinNL buf).length < p.min_chunk_chars ∧
          idx - cs + 1 ≤ p.max_pages_per_chunk) := by
    rintro buf idx cs hb helems ⟨h1, -⟩
    have h2 : (joinNL buf).length = 0 := by omega
    exact joinNL_ne_nil hb helems (List.length_eq_zero.mp h2)
  intro mid
  induction mid with
  | nil =>
    intro after idx buf cs ce u helems hce
    simp only [List.nil_append, List.length_nil, Nat.add_zero]
    by_cases hb : buf = []
    · subst hb
      simp only [buildLoop]
      rw [if_neg hbigne, if_pos (by trivial)]
      rcases buildLoop_big_alone doc p hmin big hbig hfix after (idx + 1)
          idx u (by omega) with ⟨B, hB, hBs⟩
      exact ⟨[], B, u, by simpa using hB, by simp,
        fun c hc => by have := hBs c hc; omega⟩
    · simp only [buildLoop]
      rw [if_neg hbigne, if_neg hb]
      have hlen : big.length ≤ (joinNL (buf ++ [big])).length :=
        joinNL_length_ge (by simp)
      rw [if_neg (by intro h; omega), if_neg (hnoforce buf idx cs hb helems)]
      rcases hf : flushChunk doc u cs ce buf with _ | c0
      · rcases buildLoop_big_alone doc p hmin big hbig hfix after (idx + 1)
            idx u (by omega) with ⟨B, hB, hBs⟩
        exact ⟨[], B, u, by simpa using hB, by simp,
          fun c hc => by have := hBs c hc; omega⟩
      · rcases buildLoop_big_alone doc p hmin big hbig hfix after (idx + 1)
            idx (u + 1) (by omega) with ⟨B, hB, hBs⟩
        refine ⟨[c0], B, u + 1, ?_, ?_, ?_⟩
        · simp only [hB]
          rfl
        · intro c hc
          rcases List.mem_singleton.mp hc with rfl
          rw [flushChunk_some_eq hf]
          exact hce hb
        · intro c hc
          have := hBs c hc
          omega
  | cons t mid2 ih =>
    intro after idx buf cs ce u helems hce
    have heq : idx + 1 + mid2.length = idx + (t :: mid2).length := by
      simp only [List.length_cons]
      omega
    rw [List.cons_append]
    simp only [buildLoop]
    by_cases h0 : t = []
    · rw [if_pos h0]
      rcases ih after (idx + 1) buf cs ce u helems
          (fun hb => by have := hce hb; omega) with ⟨A, B, u2, h1, h2, h3⟩
      rw [heq] at h1 h2 h3
      exact ⟨A, B, u2, h1, h2, h3⟩
    · rw [if_neg h0]
      by_cases hb : buf = []
      · rw [if_pos hb]
        rcases ih after (idx + 1) [t] idx idx u (by simpa using h0)
            (fun _ => by omega) with ⟨A, B, u2, h1, h2, h3⟩
        rw [heq] at h1 h2 h3
        exact ⟨A, B, u2, h1, h2, h3⟩
      · rw [if_neg hb]
        by_cases hfit : (joinNL (buf ++ [t])).length ≤ p.max_chunk_chars ∧
            idx - cs + 1 ≤ p.max_pages_per_chunk
        · rw [if_pos hfit]
          rcases ih after (idx + 1) (buf ++ [t]) cs idx u
              (by
                intro x hx
                rcases List.mem_append.mp hx with hx2 | hx2
                · exact helems x hx2
                · rcases List.mem_singleton.mp hx2 with rfl
                  simpa using h0)
              (fun _ => by omega) with ⟨A, B, u2, h1, h2, h3⟩
          rw [heq] at h1 h2 h3
          exact ⟨A, B, u2, h1, h2, h3⟩
        · rw [if_neg hfit, if_neg (hnoforce buf idx cs hb helems)]
          rcases hf : flushChunk doc u cs ce buf with _ | c0
          · rcases ih after (idx + 1) [t] idx idx u (by simpa using h0)
                (fun _ => by omega) with ⟨A, B, u2, h1, h2, h3⟩
            rw [heq] at h1 h2 h3
            exact ⟨A, B, u2, h1, h2, h3⟩
          · rcases ih after (idx + 1) [t] idx idx (u + 1) (by simpa using h0)
                (fun _ => by omega) with ⟨A, B, u2, h1, h2, h3⟩
            rw [heq] at h1 h2 h3
            refine ⟨c0 :: A, B, u2, ?_, ?_, h3⟩
            · simp only [h1]
              rfl
            · intro c hc
              rcases List.mem_cons.mp hc with rfl | hc2
              · rw [flushChunk_some_eq hf]
                have := hce hb
                simp only [List.length_cons]
                omega
              · exact h2 c hc2

/-- C4 (amended): with the minimum-size relaxation disabled
(min_chunk_chars at most 1) and pages already normalized, every page whose
text alone exceeds max_chunk_chars appears in the output as exactly one
chunk, and that chunk covers just that page and carries exactly its text. -/
theorem c4_oversized_page_own_chunk (p : ChunkParams)
    (hmin : p.min_chunk_chars ≤ 1)
    (hminmax : p.min_chunk_chars ≤ p.max_chunk_chars)
    (pre post : List (List Char)) (big : List Char) (doc : String) (u0 : Nat)
    (hfix : ∀ t ∈ pre ++ big :: post, normalize_text t = t)
    (hbig : p.max_chunk_chars < big.length) :
    ∃ u2, (build_chunks (pre ++ big :: post) doc p u0).filter
        (fun c => decide (c.page_start ≤ pre.length + 1) &&
          decide (pre.length + 1 ≤ c.page_end))
      = [⟨u2, doc, pre.length + 1, pre.length + 1, big⟩] := by
  have hfixbig : normalize_text big = big := hfix big (by simp)
  rcases buildLoop_split doc p hmin big hbig hfixbig pre post 1 [] 1 1 u0
      (by simp) (by simp) with ⟨A, B, u2, h1, h2, h3⟩
  have hco : 1 + pre.length = pre.length + 1 := by omega
  rw [hco] at h1 h2 h3
  refine ⟨u2, ?_⟩
  unfold build_chunks
  rw [h1, List.filter_append]
  have hA : A.filter (fun c => decide (c.page_start ≤ pre.length + 1) &&
      decide (pre.length + 1 ≤ c.page_end)) = [] := by
    rw [List.filter_eq_nil_iff]
    intro c hc
    have h5 := h2 c hc
    simp only [Bool.and_eq_true, decide_eq_true_eq, not_and]
    omega
  have hB : B.filter (fun c => decide (c.page_start ≤ pre.length + 1) &&
      decide (pre.length + 1 ≤ c.page_end)) = [] := by
    rw [List.filter_eq_nil_iff]
    intro c hc
    have h5 := h3 c hc
    simp only [Bool.and_eq_true, decide_eq_true_eq, not_and]
    omega
  rw [hA, List.filter_cons_of_pos (by simp), hB, List.nil_append]

/-- C3: on the two non-empty normalized pages aa and bbbb with
max_chunk_chars 3, min_chunk_chars 3 and max_pages_per_chunk 2, the chunker
emits page ranges (1,2) and (2,2): both chunks cover page 2, so the ranges
overlap instead of partitioning pages 1..2 — the undersized buffer is
force-appended with page 2 and flushed, and the next chunk is then started
with page 2 again. -/
theorem c3_ranges_overlap_eval :
    (build_chunks cexPages "d" cexParams 0).map
      (fun c => (c.page_start, c.page_end)) = [(1, 2), (2, 2)] := by
  decide

/-- C4 (counterexample): with min_chunk_chars 3 ≤ max_chunk_chars 3, page 2
of cexPages has text of length 4 exceeding max_chunk_chars, yet the output
does not contain exactly one chunk covering just that page: two chunks
cover page 2 and the first spans pages 1-2. -/
theorem c4_counterexample :
    ((build_chunks cexPages "d" cexParams 0).filter
        (fun c => decide (c.page_start ≤ 2) && decide (2 ≤ c.page_end))).map
      (fun c => (c.page_start, c.page_end)) = [(1, 2), (2, 2)] ∧
    ¬ ∃ u2, ((build_chunks cexPages "d" cexParams 0).filter
        (fun c => decide (c.page_start ≤ 2) && decide (2 ≤ c.page_end)))
      = [⟨u2, "d", 2, 2, ['b', 'b', 'b', 'b']⟩] := by
  refine ⟨by decide, ?_⟩
  rintro ⟨u2, h⟩
  have hl : ((build_chunks cexPages "d" cexParams 0).filter
      (fun c => decide (c.page_start ≤ 2) && decide (2 ≤ c.page_end))).length
      = 2 := by decide
  rw [h] at hl
  simp at hl

/-- Witness for C4 at a concrete input: a lone page of length 4 with
max_chunk_chars 3 and min_chunk_chars 0 becomes exactly one single-page
chunk. -/
theorem c4_witness :
    ∃ u2, (build_chunks [['a', 'a', 'a', 'a']] "d" ⟨3, 0, 2⟩ 0).filter
        (fun c => decide (c.page_start ≤ 1) && decide (1 ≤ c.page_end))
      = [⟨u2, "d", 1, 1, ['a', 'a', 'a', 'a']⟩] :=
  c4_oversized_page_own_chunk ⟨3, 0, 2⟩ (by decide) (by decide) [] []
    ['a', 'a', 'a', 'a'] "d" 0 (by decide) (by decide)

/-- C1: after ingesting /d/x.pdf and then re-ingesting it once its content
hash changed from h0 to h1, the documents table holds two rows for that
one canonical path — the superseded row is left in place because the
upsert resolves conflicts on the content-derived id, not the path, and
only the chunks of the old identity are deleted. -/
theorem c1_stale_row_eval :
    runB.1.documents.map (fun r => (r.id, r.path))
      = [("h0", "/d/x.pdf"), ("h1", "/d/x.pdf")] ∧
    (runB.1.documents.filter (fun r => decide (r.path = "/d/x.pdf"))).length
      = 2 := by
  exact ⟨by decide, by decide⟩

/-- C6: re-ingesting the very same unchanged file (fB, already current in
the store) with force false is not a no-op: the batch reports indexed 1
and skipped 0, and the chunk rows of the live document double from 1 to 2,
because change detection keeps comparing against the stale h0 row for that
path. -/
theorem c6_idempotence_fails_eval :
    runB2.2.indexed = 1 ∧ runB2.2.skipped = 0 ∧
    (runB.1.chunks.filter (fun r => decide (r.document_id = "h1"))).length
      = 1 ∧
    (runB2.1.chunks.filter (fun r => decide (r.document_id = "h1"))).length
      = 2 := by
  exact ⟨by decide, by decide, by decide, by decide⟩

/-- C2 (counterexample): ingesting byte-identical files at /a.pdf and then
/b.pdf leaves one single documents row, bearing the shared content id and
the second path — not two separate rows keyed by path. -/
theorem c2_counterexample :
    (process_file demoHash 20 demoParams false
        (process_file demoHash 10 demoParams false emptyStore wSame1).1
        wSame2).1.documents.map (fun r => (r.id, r.path))
      = [("h1", "/b.pdf")] ∧
    ¬ (process_file demoHash 20 demoParams false
        (process_file demoHash 10 demoParams false emptyStore wSame1).1
        wSame2).1.documents.length = 2 := by
  exact ⟨by decide, by decide⟩

/-- The reindex transaction never reports a skip. -/
theorem commit_file_not_skipped (hash : List Nat → String) (now : Rat)
    (p : ChunkParams) (s : Store) (existing : Option DocRow) (f : PdfFile) :
    (commit_file hash now p s existing f).2 ≠ .skipped := by
  unfold commit_file
  rcases index_pdf hash now p s.next_uuid f with m | doc
  · simp
  · rcases f.dbFail with _ | m
    · simp
    · simp

/-- A reindex transaction that reports an error leaves the store exactly as
it was: the rollback discards all of the uncommitted changes of this
file. -/
theorem commit_file_errored (hash : List Nat → String) (now : Rat)
    (p : ChunkParams) (s : Store) (existing : Option DocRow) (f : PdfFile)
    (m : String)
    (h : (commit_file hash now p s existing f).2 = .errored m) :
    commit_file hash now p s existing f = (s, .errored m) := by
  unfold commit_file at h ⊢
  rcases hI : index_pdf hash now p s.next_uuid f with m2 | doc
  · rw [hI] at h
    simp only at h
    cases h
    rfl
  · rw [hI] at h
    rcases hD : f.dbFail with _ | m2
    · rw [hD] at h
      simp at h
    · rw [hD] at h
      simp only at h
      cases h
      rfl

/-- C5: with an existing document row for the canonical path, force false
and a successful stat, the file is skipped exactly when the stored mtime
equals the current stat mtime exactly and the stored size equals the
current size; a missing row, force true, any metadata mismatch, or a
failed stat all lead to reindexing. -/
theorem c5_skip_characterization (hash : List Nat → String) (now : Rat)
    (p : ChunkParams) (force : Bool) (s : Store) (f : PdfFile) :
    (process_file hash now p force s f).2 = .skipped ↔
      (force = false ∧ ∃ e st, get_document_by_path s f.resolved = some e ∧
        f.statRes = .ok st ∧ e.mtime = st.st_mtime ∧
        e.size_bytes = st.st_size) := by
  constructor
  · intro h
    simp only [process_file] at h
    split at h
    · rename_i hskip
      rcases hE : get_document_by_path s f.resolved with _ | e
      · rw [hE] at hskip
        simp at hskip
      · cases force
        · rcases hS : f.statRes with m | st
          · rw [hE, hS] at hskip
            simp at hskip
          · rw [hE, hS] at hskip
            simp only [Bool.and_eq_true, decide_eq_true_eq] at hskip
            exact ⟨rfl, e, st, rfl, rfl, hskip.1, hskip.2⟩
        · rw [hE] at hskip
          simp at hskip
    · exact absurd h (commit_file_not_skipped hash now p s
        (get_document_by_path s f.resolved) f)
  · rintro ⟨hforce, e, st, hE, hS, hm, hsz⟩
    subst hforce
    simp only [process_file]
    rw [hE, hS]
    simp [hm, hsz]

/-- C7: a file whose processing raises (in stat, read, extraction or the
storage transaction) is isolated: its in-flight changes are rolled back so
the store is unchanged for that file, the batch records the pair of the
original path string and the message, the counts are untouched, and the
loop continues with the remaining files instead of failing. -/
theorem c7_per_file_error_isolation (hash : List Nat → String) (now : Rat)
    (p : ChunkParams) (force : Bool) (s : Store) (f : PdfFile) (m : String)
    (rest : List PdfFile)
    (h : (process_file hash now p force s f).2 = .errored m) :
    (process_file hash now p force s f).1 = s ∧
    ingest_loop hash now p force s (f :: rest)
      = ((ingest_loop hash now p force s rest).1,
         ⟨(ingest_loop hash now p force s rest).2.indexed,
          (ingest_loop hash now p force s rest).2.skipped,
          (f.path, m) :: (ingest_loop hash now p force s rest).2.errors⟩) := by
  have hpf : process_file hash now p force s f = (s, .errored m) := by
    simp only [process_file] at h ⊢
    split at h
    · simp at h
    · rename_i hskip
      rw [if_neg hskip]
      exact commit_file_errored hash now p s
        (get_document_by_path s f.resolved) f m h
  refine ⟨by rw [hpf], ?_⟩
  simp only [ingest_loop, hpf]

/-- Witness for C7: a concrete file whose extraction raises leaves the
empty store untouched and contributes exactly one error entry. -/
theorem c7_witness :
    (process_file demoHash 0 demoParams false emptyStore fBad).1
      = emptyStore ∧
    ingest_loop demoHash 0 demoParams false emptyStore [fBad]
      = ((ingest_loop demoHash 0 demoParams false emptyStore []).1,
         ⟨(ingest_loop demoHash 0 demoParams false emptyStore []).2.indexed,
          (ingest_loop demoHash 0 demoParams false emptyStore []).2.skipped,
          (fBad.path, "boom")
            :: (ingest_loop demoHash 0 demoParams false
                  emptyStore []).2.errors⟩) :=
  c7_per_file_error_isolation demoHash 0 demoParams false emptyStore fBad
    "boom" [] (by decide)

/-- Processing a file at a path with no stored row, whose content id is
also new, appends one documents row and the freshly built chunk and fts
rows. -/
theorem process_file_fresh_insert (hash : List Nat → String) (now : Rat)
    (p : ChunkParams) (f : PdfFile) (st : Stat) (b : List Nat)
    (r : List (List Char)) (s : Store)
    (hs : f.statRes = .ok st) (hb : f.bytesRes = .ok b)
    (hr : f.rawPages = .ok r) (hd : f.dbFail = none)
    (hE : get_document_by_path s f.resolved = none)
    (hid : (s.documents.any fun row => decide (row.id = stable_doc_id (hash b)))
      = false) :
    process_file hash now p false s f =
      (⟨s.documents ++
          [⟨stable_doc_id (hash b), f.resolved, f.filename, hash b,
            st.st_mtime, st.st_size, now⟩],
        s.chunks ++
          (build_chunks (r.map normalize_text) (stable_doc_id (hash b)) p
            s.next_uuid).map
            (fun c => ⟨c.id, c.doc_id, c.page_start, c.page_end, c.text⟩),
        s.chunks_fts ++
          (build_chunks (r.map normalize_text) (stable_doc_id (hash b)) p
            s.next_uuid).map
            (fun c => ⟨c.id, c.doc_id, f.filename, f.resolved,
              c.page_start, c.page_end, c.text⟩),
        s.next_uuid +
          (build_chunks (r.map normalize_text) (stable_doc_id (hash b)) p
            s.next_uuid).length⟩, .indexed) := by
  have hidx : index_pdf hash now p s.next_uuid f = .ok
      ⟨stable_doc_id (hash b), f.resolved, f.filename, hash b,
       st.st_mtime, st.st_size, now,
       build_chunks (r.map normalize_text) (stable_doc_id (hash b)) p
         s.next_uuid⟩ := by
    unfold index_pdf extract_pages_text
    rw [hs, hb, hr]
  unfold process_file
  rw [hE]
  simp only [commit_file, hidx, hd, hE]
  simp [upsert_document, hid, insert_chunks, insert_fts_rows]

/-- Processing a file at a path with no stored row, whose content id is
already present, rewrites that existing row in place through the
ON CONFLICT(id) update instead of adding a row. -/
theorem process_file_fresh_update (hash : List Nat → String) (now : Rat)
    (p : ChunkParams) (f : PdfFile) (st : Stat) (b : List Nat)
    (r : List (List Char)) (s : Store)
    (hs : f.statRes = .ok st) (hb : f.bytesRes = .ok b)
    (hr : f.rawPages = .ok r) (hd : f.dbFail = none)
    (hE : get_document_by_path s f.resolved = none)
    (hid : (s.documents.any fun row => decide (row.id = stable_doc_id (hash b)))
      = true) :
    process_file hash now p false s f =
      (⟨s.documents.map (fun row =>
          if row.id = stable_doc_id (hash b) then
            ⟨row.id, f.resolved, f.filename, hash b, st.st_mtime,
             st.st_size, now⟩
          else row),
        s.chunks ++
          (build_chunks (r.map normalize_text) (stable_doc_id (hash b)) p
            s.next_uuid).map
            (fun c => ⟨c.id, c.doc_id, c.page_start, c.page_end, c.text⟩),
        s.chunks_fts ++
          (build_chunks (r.map normalize_text) (stable_doc_id (hash b)) p
            s.next_uuid).map
            (fun c => ⟨c.id, c.doc_id, f.filename, f.resolved,
              c.page_start, c.page_end, c.text⟩),
        s.next_uuid +
          (build_chunks (r.map normalize_text) (stable_doc_id (hash b)) p
            s.next_uuid).length⟩, .indexed) := by
  have hidx : index_pdf hash now p s.next_uuid f = .ok
      ⟨stable_doc_id (hash b), f.resolved, f.filename, hash b,
       st.st_mtime, st.st_size, now,
       build_chunks (r.map normalize_text) (stable_doc_id (hash b)) p
         s.next_uuid⟩ := by
    unfold index_pdf extract_pages_text
    rw [hs, hb, hr]
  unfold process_file
  rw [hE]
  simp only [commit_file, hidx, hd, hE]
  simp [upsert_document, hid, insert_chunks, insert_fts_rows]

/-- C2 (amended): two byte-identical files under different canonical paths
receive the same stable id and content hash (the identifier is a function
of the bytes alone), but after ingesting both into a fresh store the
documents table holds a single row bearing that shared content id: the
second upsert, resolved on the content-derived primary key, rewrites the
row in place, so only the second path remains recorded and no second
Document row exists. -/
theorem c2_same_bytes_single_row (hash : List Nat → String) (n1 n2 : Rat)
    (p : ChunkParams) (f1 f2 : PdfFile) (st1 st2 : Stat) (b : List Nat)
    (r1 r2 : List (List Char))
    (h1s : f1.statRes = .ok st1) (h1b : f1.bytesRes = .ok b)
    (h1r : f1.rawPages = .ok r1) (h1d : f1.dbFail = none)
    (h2s : f2.statRes = .ok st2) (h2b : f2.bytesRes = .ok b)
    (h2r : f2.rawPages = .ok r2) (h2d : f2.dbFail = none)
    (hne : f1.resolved ≠ f2.resolved) :
    (∀ u1 u2 d1 d2, index_pdf hash n1 p u1 f1 = .ok d1 →
      index_pdf hash n2 p u2 f2 = .ok d2 →
      d1.doc_id = d2.doc_id ∧ d1.sha256 = d2.sha256) ∧
    (process_file hash n2 p false
        (process_file hash n1 p false emptyStore f1).1 f2).1.documents
      = [⟨stable_doc_id (hash b), f2.resolved, f2.filename, hash b,
          st2.st_mtime, st2.st_size, n2⟩] := by
  have hidx : ∀ (n : Rat) (u : Nat) (f : PdfFile) (st : Stat)
      (r : List (List Char)), f.statRes = .ok st → f.bytesRes = .ok b →
      f.rawPages = .ok r →
      index_pdf hash n p u f = .ok
        ⟨stable_doc_id (hash b), f.resolved, f.filename, hash b,
         st.st_mtime, st.st_size, n,
         build_chunks (r.map normalize_text) (stable_doc_id (hash b)) p u⟩ := by
    intro n u f st r hs hb hr
    unfold index_pdf extract_pages_text
    rw [hs, hb, hr]
  refine ⟨?_, ?_⟩
  · intro u1 u2 d1 d2 hd1 hd2
    rw [hidx n1 u1 f1 st1 r1 h1s h1b h1r] at hd1
    rw [hidx n2 u2 f2 st2 r2 h2s h2b h2r] at hd2
    cases hd1
    cases hd2
    exact ⟨rfl, rfl⟩
  · rw [process_file_fresh_insert hash n1 p f1 st1 b r1 emptyStore
      h1s h1b h1r h1d rfl rfl]
    rw [process_file_fresh_update hash n2 p f2 st2 b r2 _
      h2s h2b h2r h2d
      (by simp [get_document_by_path, List.find?, hne, emptyStore])
      (by simp [emptyStore])]
    simp [emptyStore]

/-- Witness for C2 (amended) at the concrete byte-identical pair wSame1 and
wSame2. -/
theorem c2_witness :
    (∀ u1 u2 d1 d2, index_pdf demoHash 10 demoParams u1 wSame1 = .ok d1 →
      index_pdf demoHash 20 demoParams u2 wSame2 = .ok d2 →
      d1.doc_id = d2.doc_id ∧ d1.sha256 = d2.sha256) ∧
    (process_file demoHash 20 demoParams false
        (process_file demoHash 10 demoParams false emptyStore wSame1).1
        wSame2).1.documents
      = [⟨stable_doc_id (demoHash [7]), wSame2.resolved, wSame2.filename,
          demoHash [7], (5 : Rat), (3 : Int), 20⟩] :=
  c2_same_bytes_single_row demoHash 10 20 demoParams wSame1 wSame2
    ⟨5, 3⟩ ⟨5, 3⟩ [7] [['z']] [['z']] rfl rfl rfl rfl rfl rfl rfl rfl
    (by decide)

/-- C8 (amended): for every query, store and scoring capability the search
operation returns results sorted by the bm25 score ascending (best first,
lower is better), and whenever top_k is non-negative the result length is
at most top_k; a negative top_k imposes no cap, since SQLite treats a
negative LIMIT as unlimited. -/
theorem c8_search_sorted_capped (score : List Char → FtsRow → Rat)
    (matchQ : List Char → FtsRow → Bool)
    (snippetF : Int → List Char → FtsRow → List Char) (s : Store)
    (q : List Char) (top_k snippet_chars : Int) :
    List.Sorted (fun a b : SearchResult => a.score ≤ b.score)
      (search_chunks score matchQ snippetF s q top_k snippet_chars) ∧
    (0 ≤ top_k →
      ((search_chunks score matchQ snippetF s q top_k snippet_chars).length
        : Int) ≤ top_k) := by
  haveI hT : IsTotal FtsRow (fun a b => score q a ≤ score q b) :=
    ⟨fun a b => le_total _ _⟩
  haveI hTr : IsTrans FtsRow (fun a b => score q a ≤ score q b) :=
    ⟨fun a b c hab hbc => le_trans hab hbc⟩
  have hsorted : List.Sorted (fun a b => score q a ≤ score q b)
      ((s.chunks_fts.filter (matchQ q)).insertionSort
        (fun a b => score q a ≤ score q b)) :=
    List.sorted_insertionSort _ _
  have hrows : List.Sorted (fun a b => score q a ≤ score q b)
      (if top_k < 0 then
        (s.chunks_fts.filter (matchQ q)).insertionSort
          (fun a b => score q a ≤ score q b)
      else ((s.chunks_fts.filter (matchQ q)).insertionSort
          (fun a b => score q a ≤ score q b)).take top_k.toNat) := by
    split
    · exact hsorted
    · exact List.Pairwise.sublist (List.take_sublist _ _) hsorted
  constructor
  · show List.Pairwise _ _
    simp only [search_chunks]
    rw [List.pairwise_map]
    exact hrows
  · intro h
    simp only [search_chunks]
    rw [if_neg (not_lt.mpr h)]
    rw [List.length_map]
    have hlen := List.length_take_le top_k.toNat
      ((s.chunks_fts.filter (matchQ q)).insertionSort
        (fun a b => score q a ≤ score q b))
    calc (((( s.chunks_fts.filter (matchQ q)).insertionSort
          (fun a b => score q a ≤ score q b)).take top_k.toNat).length : Int)
        ≤ (top_k.toNat : Int) := by exact_mod_cast hlen
      _ = top_k := Int.toNat_of_nonneg h

/-- C8 (counterexample): searching with top_k equal to -1 against a store
holding one matching row returns one result: SQLite imposes no cap for a
negative LIMIT, so the length of the result sequence is not at most
top_k. -/
theorem c8_counterexample :
    ((search_chunks zeroScore allMatch emptySnippet oneRowStore
        ['z'] (-1) 800).length : Int) = 1 ∧
    ¬ ((1 : Int) ≤ -1) := by
  exact ⟨by decide, by decide⟩

/-- C9: a query whose body string is missing, empty, or whitespace-only
(stripping yields the empty string) is answered with the 400 client-error
response, uniformly in the store and in every search-engine capability —
so no query against the index is executed and an empty query is never a
successful zero-result match. -/
theorem c9_empty_query_rejected (score : List Char → FtsRow → Rat)
    (matchQ : List Char → FtsRow → Bool)
    (snippetF : Int → List Char → FtsRow → List Char)
    (dtk dsc : Int) (s : Store) (body_query : Option (List Char))
    (btk bsc : Option Int)
    (h : pyStrip (body_query.getD []) = []) :
    query_route score matchQ snippetF dtk dsc s body_query btk bsc
      = .clientError 400 "Missing query" := by
  simp only [query_route]
  rw [if_pos h]

/-- Witness for C9 at a concrete whitespace-only query body. -/
theorem c9_witness :
    query_route zeroScore allMatch emptySnippet 5 800 oneRowStore
      (some [' ', '\t']) none none = .clientError 400 "Missing query" :=
  c9_empty_query_rejected zeroScore allMatch emptySnippet 5 800 oneRowStore
    (some [' ', '\t']) none none (by decide)

/-- C10: a files-list entry that does not exist, is not a regular file, or
lacks the case-insensitive .pdf suffix is silently dropped before
processing: the route result over a list containing it is the ingest loop
over the kept candidates of the list without it, so the dropped entry
contributes nothing to indexed, skipped, or errors. -/
theorem c10_non_pdf_dropped (hash : List Nat → String) (now : Rat)
    (p : ChunkParams) (dirScan : List PdfFile) (force : Bool) (s : Store)
    (l1 l2 : List PdfFile) (f : PdfFile)
    (h : keepCandidate f = false) :
    ingest_route hash now p dirScan (some (l1 ++ f :: l2)) force s
      = ingest_loop hash now p force s ((l1 ++ l2).filter keepCandidate) := by
  simp only [ingest_route]
  rw [if_neg (by simp)]
  rw [List.filter_append, List.filter_cons_of_neg (by simp [h]),
    ← List.filter_append]

/-- Witness for C10 at a concrete non-pdf candidate. -/
theorem c10_witness :
    ingest_route demoHash 0 demoParams [] (some [fTxt]) false emptyStore
      = ingest_loop demoHash 0 demoParams false emptyStore
          ((([] : List PdfFile) ++ []).filter keepCandidate) :=
  c10_non_pdf_dropped demoHash 0 demoParams [] false emptyStore [] [] fTxt
    (by decide)
